import Mathlib

/-!
Verification of `frontend/migrate_imports.py`.

The script rewrites Rust import paths in a source tree using a fixed,
ordered table of textual substitution rules (Python `re.search`/`re.sub`
applied to patterns that are literal strings), writes back only files whose
content changed, and reports per-file results.

We model file contents as `List Char`.  Python's `re.sub(p, r, s)` on a
literal (metacharacter-free) pattern `p` replaces the leftmost
non-overlapping occurrences of `p` in `s` by `r`, scanning left to right and
resuming after each replaced occurrence.  `splitOnSub` computes the chunk
decomposition of `s` induced by that scan, `joinWith` glues chunks with a
separator, and `replaceAll` is the substitution itself.
-/

namespace Migrate

abbrev Str := List Char

/-- Prepend a character to the first chunk of a chunk list. -/
def consHead (c : Char) : List Str → List Str
  | [] => [[c]]
  | u :: L => (c :: u) :: L

/-- Glue a list of chunks with a separator between consecutive chunks. -/
def joinWith (sep : Str) : List Str → Str
  | [] => []
  | [u] => u
  | u :: v :: L => u ++ (sep ++ joinWith sep (v :: L))

/-- Decompose `s` into the chunks left between the leftmost non-overlapping
occurrences of `p`, exactly as the left-to-right scan of `re.sub` finds
them: whenever `p` is a prefix of the remaining text, a chunk boundary is
emitted and scanning resumes after that occurrence. -/
def splitOnSub (p : Str) (s : Str) : List Str :=
  if h : p ≠ [] ∧ p <+: s then
    [] :: splitOnSub p (s.drop p.length)
  else
    match s with
    | [] => [[]]
    | c :: t => consHead c (splitOnSub p t)
termination_by s.length
decreasing_by
  · have hp : 0 < p.length := List.length_pos.mpr h.1
    have hs : p.length ≤ s.length := h.2.length_le
    simp only [List.length_drop]
    omega
  · simp only [List.length_cons]
    omega

/-- `re.sub(p, r, s)` for a literal pattern `p`: replace every leftmost
non-overlapping occurrence of `p` in `s` by `r`. -/
def replaceAll (p r s : Str) : Str :=
  joinWith r (splitOnSub p s)

theorem splitOnSub_pos {p s : Str} (hp : p ≠ []) (hs : p <+: s) :
    splitOnSub p s = [] :: splitOnSub p (s.drop p.length) := by
  rw [splitOnSub]
  exact dif_pos ⟨hp, hs⟩

theorem splitOnSub_nil (p : Str) : splitOnSub p [] = [[]] := by
  rw [splitOnSub]
  by_cases hp : p = []
  · subst hp
    simp
  · rw [dif_neg]
    intro h
    exact hp (List.prefix_nil.mp h.2)

theorem splitOnSub_cons_neg {p : Str} {c : Char} {t : Str}
    (h : ¬ p <+: c :: t) :
    splitOnSub p (c :: t) = consHead c (splitOnSub p t) := by
  rw [splitOnSub]
  rw [dif_neg]
  intro hcontra
  exact h hcontra.2

theorem consHead_ne_nil (c : Char) (L : List Str) : consHead c L ≠ [] := by
  cases L <;> simp [consHead]

theorem splitOnSub_ne_nil (p s : Str) : splitOnSub p s ≠ [] := by
  rw [splitOnSub]
  by_cases h : p ≠ [] ∧ p <+: s
  · rw [dif_pos h]
    simp
  · rw [dif_neg h]
    match s with
    | [] => simp
    | c :: t => exact consHead_ne_nil c (splitOnSub p t)

theorem joinWith_consHead (sep : Str) (c : Char) {L : List Str} (hL : L ≠ []) :
    joinWith sep (consHead c L) = c :: joinWith sep L := by
  match L with
  | [] => exact absurd rfl hL
  | [u] => simp [consHead, joinWith]
  | u :: v :: L' => simp [consHead, joinWith]

theorem joinWith_cons_ne (sep : Str) (u : Str) {L : List Str} (hL : L ≠ []) :
    joinWith sep (u :: L) = u ++ (sep ++ joinWith sep L) := by
  match L with
  | [] => exact absurd rfl hL
  | v :: L' => simp [joinWith]

/-- Reconstruction: gluing the chunks back with the pattern itself recovers
the original string. -/
theorem joinWith_splitOnSub_bounded (p : Str) (hp : p ≠ []) :
    ∀ n : Nat, ∀ s : Str, s.length ≤ n → joinWith p (splitOnSub p s) = s := by
  intro n
  induction n with
  | zero =>
    intro s hs
    have : s = [] := List.eq_nil_of_length_eq_zero (Nat.le_zero.mp hs)
    subst this
    simp [splitOnSub_nil, joinWith]
  | succ n ih =>
    intro s hs
    by_cases hpre : p <+: s
    · rw [splitOnSub_pos hp hpre]
      rw [joinWith_cons_ne p [] (splitOnSub_ne_nil p _)]
      have hdrop : (s.drop p.length).length ≤ n := by
        have h1 : 0 < p.length := List.length_pos.mpr hp
        simp only [List.length_drop]
        omega
      rw [ih _ hdrop]
      simp only [List.nil_append]
      obtain ⟨t, ht⟩ := hpre
      subst ht
      simp
    · match s with
      | [] => simp [splitOnSub_nil, joinWith]
      | c :: t =>
        rw [splitOnSub_cons_neg hpre]
        rw [joinWith_consHead p c (splitOnSub_ne_nil p t)]
        have ht : t.length ≤ n := by
          have := hs
          simp only [List.length_cons] at this
          omega
        rw [ih _ ht]

/-- Reconstruction: gluing the chunks back with the pattern itself recovers
the original string. -/
theorem joinWith_splitOnSub (p s : Str) (hp : p ≠ []) : joinWith p (splitOnSub p s) = s :=
  joinWith_splitOnSub_bounded p hp s.length s (le_refl _)

theorem prefix_append_split {q a b : Str} (h : q <+: a ++ b) :
    q <+: a ∨ ∃ y, q = a ++ y ∧ y <+: b := by
  rcases List.prefix_or_prefix_of_prefix h (List.prefix_append a b) with h1 | h1
  · exact Or.inl h1
  · obtain ⟨y, hy⟩ := h1
    subst hy
    exact Or.inr ⟨y, rfl, (List.prefix_append_right_inj a).mp h⟩

/-- An occurrence of `q` inside `a ++ b` lies inside `a`, inside `b`, or
straddles the boundary: `q = x ++ y` with `x` a nonempty suffix of `a` and
`y` a nonempty prefix of `b`. -/
theorem infix_append_split {q b : Str} : ∀ {a : Str}, q <:+: a ++ b →
    q <:+: a ∨ q <:+: b ∨
      ∃ x y, q = x ++ y ∧ x ≠ [] ∧ y ≠ [] ∧ x <:+ a ∧ y <+: b := by
  intro a
  induction a with
  | nil =>
    intro h
    exact Or.inr (Or.inl (by simpa using h))
  | cons c a' ih =>
    intro h
    rw [List.cons_append] at h
    rcases List.infix_cons_iff.mp h with h1 | h1
    · rcases List.prefix_cons_iff.mp h1 with h2 | ⟨t, rfl, h3⟩
      · subst h2
        exact Or.inl (by simp)
      · rcases prefix_append_split h3 with h4 | ⟨y, rfl, h5⟩
        · exact Or.inl (List.IsPrefix.isInfix (List.cons_prefix_cons.mpr ⟨rfl, h4⟩))
        · by_cases hy : y = []
          · subst hy
            exact Or.inl (by simp)
          · refine Or.inr (Or.inr ⟨c :: a', y, by simp, by simp, hy, ?_, h5⟩)
            exact List.suffix_rfl
    · rcases ih h1 with h2 | h2 | ⟨x, y, hq, hx, hy, hxa, hyb⟩
      · exact Or.inl (List.infix_cons h2)
      · exact Or.inr (Or.inl h2)
      · exact Or.inr (Or.inr ⟨x, y, hq, hx, hy,
          List.suffix_cons_iff.mpr (Or.inr hxa), hyb⟩)

theorem joinWith_head_pre (sep : Str) (u : Str) (L : List Str) :
    u <+: joinWith sep (u :: L) := by
  match L with
  | [] => exact List.prefix_rfl
  | v :: L' =>
    rw [joinWith_cons_ne sep u (by simp)]
    exact List.prefix_append u _

/-- No chunk produced by the leftmost scan still contains the pattern. -/
theorem chunk_no_occurrence_bounded (p : Str) (hp : p ≠ []) :
    ∀ n : Nat, ∀ s : Str, s.length ≤ n → ∀ u ∈ splitOnSub p s, ¬ p <:+: u := by
  intro n
  induction n with
  | zero =>
    intro s hs u hu hinf
    have : s = [] := List.eq_nil_of_length_eq_zero (Nat.le_zero.mp hs)
    subst this
    rw [splitOnSub_nil] at hu
    simp at hu
    subst hu
    exact hp (List.infix_nil.mp hinf)
  | succ n ih =>
    intro s hs u hu hinf
    by_cases hpre : p <+: s
    · rw [splitOnSub_pos hp hpre] at hu
      rcases List.mem_cons.mp hu with h1 | h1
      · subst h1
        exact hp (List.infix_nil.mp hinf)
      · have hdrop : (s.drop p.length).length ≤ n := by
          have h1 : 0 < p.length := List.length_pos.mpr hp
          have h2 : p.length ≤ s.length := hpre.length_le
          simp only [List.length_drop]
          omega
        exact ih _ hdrop u h1 hinf
    · match s with
      | [] =>
        rw [splitOnSub_nil] at hu
        simp at hu
        subst hu
        exact hp (List.infix_nil.mp hinf)
      | c :: t =>
        rw [splitOnSub_cons_neg hpre] at hu
        obtain ⟨u₀, L, hsplit⟩ : ∃ u₀ L, splitOnSub p t = u₀ :: L := by
          cases h : splitOnSub p t with
          | nil => exact absurd h (splitOnSub_ne_nil p t)
          | cons a b => exact ⟨a, b, rfl⟩
        rw [hsplit] at hu
        simp only [consHead] at hu
        have ht : t.length ≤ n := by
          simp only [List.length_cons] at hs
          omega
        rcases List.mem_cons.mp hu with h1 | h1
        · subst h1
          rcases List.infix_cons_iff.mp hinf with h2 | h2
          · have hu₀t : u₀ <+: t := by
              have := joinWith_head_pre p u₀ L
              rw [← hsplit] at this
              rw [joinWith_splitOnSub p t hp] at this
              exact this
            exact hpre (h2.trans (List.cons_prefix_cons.mpr ⟨rfl, hu₀t⟩))
          · exact ih _ ht u₀ (by rw [hsplit]; exact List.mem_cons_self _ _) h2
        · exact ih _ ht u (by rw [hsplit]; exact List.mem_cons_of_mem _ h1) hinf

theorem chunk_no_occurrence {p s : Str} (hp : p ≠ [])
    {u : Str} (hu : u ∈ splitOnSub p s) : ¬ p <:+: u :=
  chunk_no_occurrence_bounded p hp s.length s (le_refl _) u hu

/-- Overlap conditions between a separator string `r` and a pattern `q`:
`q` does not occur in `r`, `r` does not occur in `q`, no nonempty suffix of
`r` is a prefix of `q`, and no nonempty prefix of `r` is a suffix of `q`.
Together they rule out every way an occurrence of `q` could overlap an
inserted copy of `r`.  Stated over `tails`/`inits` so that it is decidable
on concrete strings. -/
def SepOK (r q : Str) : Prop :=
  ¬ q <:+: r ∧ ¬ r <:+: q ∧
    (∀ x ∈ r.tails, x = [] ∨ ¬ x <+: q) ∧
    (∀ y ∈ r.inits, y = [] ∨ ¬ y <:+ q)

theorem SepOK.sufPre {r q : Str} (h : SepOK r q) {x : Str}
    (hx : x <:+ r) (hpx : x <+: q) : x = [] := by
  rcases h.2.2.1 x ((List.mem_tails x r).mpr hx) with h1 | h1
  · exact h1
  · exact absurd hpx h1

theorem SepOK.preSuf {r q : Str} (h : SepOK r q) {y : Str}
    (hy : y <+: r) (hsy : y <:+ q) : y = [] := by
  rcases h.2.2.2 y ((List.mem_inits y r).mpr hy) with h1 | h1
  · exact h1
  · exact absurd hsy h1

/-- Under the overlap conditions, every occurrence of `q` in a separated
join lies entirely inside one of the chunks. -/
theorem infix_joinWith {r q : Str} (hq : q ≠ []) (hok : SepOK r q) :
    ∀ L : List Str, q <:+: joinWith r L → ∃ u ∈ L, q <:+: u := by
  intro L
  induction L with
  | nil =>
    intro h
    rw [joinWith] at h
    exact absurd (List.infix_nil.mp h) hq
  | cons u L' ih =>
    intro h
    match L' with
    | [] => exact ⟨u, by simp, by simpa [joinWith] using h⟩
    | v :: L'' =>
      rw [joinWith_cons_ne r u (by simp)] at h
      rcases infix_append_split h with h1 | h1 | ⟨x, y, hxy, hx, hy, hxa, hyb⟩
      · exact ⟨u, List.mem_cons_self _ _, h1⟩
      · rcases infix_append_split h1 with h2 | h2 | ⟨x, y, hxy, hx, hy, hxr, hyp⟩
        · exact absurd h2 hok.1
        · obtain ⟨w, hw, hqw⟩ := ih h2
          exact ⟨w, List.mem_cons_of_mem _ hw, hqw⟩
        · have : x = [] := hok.sufPre hxr (hxy ▸ List.prefix_append x y)
          exact absurd this hx
      · rcases prefix_append_split hyb with h2 | ⟨y2, rfl, h3⟩
        · have : y = [] := hok.preSuf h2 (hxy ▸ List.suffix_append x y)
          exact absurd this hy
        · have : r <:+: q := ⟨x, y2, by rw [hxy]; simp⟩
          exact absurd this hok.2.1

theorem chunk_infix_joinWith (sep : Str) :
    ∀ L : List Str, ∀ u ∈ L, u <:+: joinWith sep L := by
  intro L
  induction L with
  | nil => intro u hu; simp at hu
  | cons v L' ih =>
    intro u hu
    match L' with
    | [] =>
      simp at hu
      subst hu
      simp [joinWith]
    | w :: L'' =>
      rw [joinWith_cons_ne sep v (by simp)]
      rcases List.mem_cons.mp hu with h1 | h1
      · subst h1
        exact (List.prefix_append u _).isInfix
      · have h2 := ih u h1
        have h3 : joinWith sep (w :: L'') <:+ v ++ (sep ++ joinWith sep (w :: L'')) :=
          (List.suffix_append sep _).trans (List.suffix_append v _)
        exact h2.trans h3.isInfix

/-- A full replacement pass leaves no occurrence of its own pattern. -/
theorem not_infix_replaceAll_self {p r s : Str} (hp : p ≠ []) (hok : SepOK r p) :
    ¬ p <:+: replaceAll p r s := by
  intro h
  obtain ⟨u, hu, hinf⟩ := infix_joinWith hp hok (splitOnSub p s) h
  exact chunk_no_occurrence hp hu hinf

/-- A replacement pass for one pattern cannot create an occurrence of any
string `q` satisfying the overlap conditions against the replacement. -/
theorem not_infix_replaceAll_preserved {p r q s : Str} (hp : p ≠ []) (hq : q ≠ [])
    (hok : SepOK r q) (hs : ¬ q <:+: s) : ¬ q <:+: replaceAll p r s := by
  intro h
  obtain ⟨u, hu, hinf⟩ := infix_joinWith hq hok (splitOnSub p s) h
  have husub : u <:+: s := by
    have := chunk_infix_joinWith p (splitOnSub p s) u hu
    rwa [joinWith_splitOnSub p s hp] at this
  exact hs (hinf.trans husub)

/-- A replacement pass for one pattern cannot destroy an occurrence of a
string `q` satisfying the overlap conditions against the pattern. -/
theorem infix_replaceAll_preserved {p r q s : Str} (hp : p ≠ []) (hq : q ≠ [])
    (hok : SepOK p q) (hs : q <:+: s) : q <:+: replaceAll p r s := by
  have hs' : q <:+: joinWith p (splitOnSub p s) := by
    rwa [joinWith_splitOnSub p s hp]
  obtain ⟨u, hu, hinf⟩ := infix_joinWith hq hok (splitOnSub p s) hs'
  exact hinf.trans (chunk_infix_joinWith r (splitOnSub p s) u hu)

theorem splitOnSub_eq_single {p s : Str} (hp : p ≠ []) (hs : ¬ p <:+: s) :
    splitOnSub p s = [s] := by
  induction s with
  | nil => exact splitOnSub_nil p
  | cons c t ih =>
    have hpre : ¬ p <+: c :: t := fun h => hs h.isInfix
    rw [splitOnSub_cons_neg hpre, ih (fun h => hs (List.infix_cons h))]
    simp [consHead]

/-- If the pattern does not occur, the substitution is the identity. -/
theorem replaceAll_id_of_no_occurrence {p r s : Str} (hp : p ≠ []) (hs : ¬ p <:+: s) :
    replaceAll p r s = s := by
  rw [replaceAll, splitOnSub_eq_single hp hs]
  simp [joinWith]

/-! ## The rule table of `migrate_imports.py`

Each rule is a `(pattern, replacement)` pair; the patterns are Python regex
source strings, but none of them contains a regex metacharacter, so they
denote literal strings (established below for claim C10). -/

/-- A substitution rule: `(pattern, replacement)`. -/
abbrev Rule := Str × Str

def UI_REPLACEMENTS : List Rule := [
  ("use crate::ui::shadcn::".toList, "use oxui::shadcn::".toList),
  ("use crate::ui::radix::".toList, "use oxui::radix::".toList),
  ("use crate::ui::custom::".toList, "use oxui::custom::".toList),
  ("use crate::ui::components::animated_grid".toList,
    "use oxui::components::animated_grid".toList),
  ("use crate::ui::components::confirm_dialog".toList,
    "use oxui::components::confirm_dialog".toList),
  ("use crate::ui::components::error".toList, "use oxui::components::error".toList),
  ("use crate::ui::components::form".toList, "use oxui::components::form".toList),
  ("use crate::ui::components::loading_overlay".toList,
    "use oxui::components::loading_overlay".toList),
  ("use crate::ui::components::portal_v2".toList,
    "use oxui::components::portal_v2".toList)]

def DOMAIN_REPLACEMENTS : List Rule := [
  ("use crate::ui::components::tag".toList,
    "use ruxlog_shared::components::tag".toList),
  ("use crate::ui::components::user_avatar".toList,
    "use ruxlog_shared::components::user_avatar".toList)]

def STORE_REPLACEMENTS : List Rule := [
  ("use crate::store::".toList, "use ruxlog_shared::store::".toList),
  ("from crate::store".toList, "from ruxlog_shared::store".toList)]

/-- The full ordered rule table, in the order `process_file` applies it. -/
def ALL_RULES : List Rule := UI_REPLACEMENTS ++ DOMAIN_REPLACEMENTS ++ STORE_REPLACEMENTS

/-- The well-formedness of the rule table that the combinatorial lemmas
need: patterns are nonempty; no replacement can take part in an occurrence
of any pattern (so substitutions never create pattern occurrences); any two
distinct patterns cannot overlap each other (so substitutions never destroy
other patterns' occurrences); and the patterns are pairwise distinct. -/
def GoodTable (rules : List Rule) : Prop :=
  (∀ pr ∈ rules, pr.1 ≠ []) ∧
    (∀ pr ∈ rules, ∀ qr ∈ rules, SepOK pr.2 qr.1) ∧
    (∀ pr ∈ rules, ∀ qr ∈ rules, pr.1 ≠ qr.1 → SepOK pr.1 qr.1) ∧
    (rules.map Prod.fst).Nodup

instance (r q : Str) : Decidable (SepOK r q) := by
  unfold SepOK
  infer_instance

instance (rules : List Rule) : Decidable (GoodTable rules) := by
  unfold GoodTable
  infer_instance

theorem allRules_good : GoodTable ALL_RULES := by decide

theorem GoodTable.tail {pr : Rule} {rest : List Rule} (h : GoodTable (pr :: rest)) :
    GoodTable rest := by
  obtain ⟨h1, h2, h3, h4⟩ := h
  refine ⟨fun x hx => h1 x (List.mem_cons_of_mem _ hx),
    fun x hx y hy => h2 x (List.mem_cons_of_mem _ hx) y (List.mem_cons_of_mem _ hy),
    fun x hx y hy => h3 x (List.mem_cons_of_mem _ hx) y (List.mem_cons_of_mem _ hy), ?_⟩
  rw [List.map_cons] at h4
  exact h4.of_cons

/-! ## The substitution loop of `process_file`

The loop body in `process_file` is, for each rule in order:
`if re.search(old, content): content = re.sub(old, new, content);
changes_made.append(rule)`.  For a literal pattern, `re.search` succeeds
exactly when the pattern occurs as a substring (`<:+:`), and `re.sub`
is `replaceAll`. -/

/-- The effect of one loop iteration on the current content. -/
def stepContent (c : Str) (pr : Rule) : Str :=
  if pr.1 <:+: c then replaceAll pr.1 pr.2 c else c

/-- One loop iteration on the `(content, changes_made)` pair. -/
def applyRule (acc : Str × List Rule) (pr : Rule) : Str × List Rule :=
  if pr.1 <:+: acc.1 then (replaceAll pr.1 pr.2 acc.1, acc.2 ++ [pr]) else acc

/-- The rules recorded in `changes_made` by running the loop over `rules`
starting from content `c`. -/
def firedFrom : List Rule → Str → List Rule
  | [], _ => []
  | pr :: rest, c => (if pr.1 <:+: c then [pr] else []) ++ firedFrom rest (stepContent c pr)

theorem applyRule_fst (acc : Str × List Rule) (pr : Rule) :
    (applyRule acc pr).1 = stepContent acc.1 pr := by
  by_cases h : pr.1 <:+: acc.1 <;> simp [applyRule, stepContent, h]

theorem applyRules_fst (rules : List Rule) :
    ∀ acc : Str × List Rule, (rules.foldl applyRule acc).1 = rules.foldl stepContent acc.1 := by
  induction rules with
  | nil => intro acc; rfl
  | cons pr rest ih =>
    intro acc
    rw [List.foldl_cons, List.foldl_cons, ih, applyRule_fst]

theorem applyRules_snd (rules : List Rule) :
    ∀ acc : Str × List Rule,
      (rules.foldl applyRule acc).2 = acc.2 ++ firedFrom rules acc.1 := by
  induction rules with
  | nil => intro acc; simp [firedFrom]
  | cons pr rest ih =>
    intro acc
    rw [List.foldl_cons, ih, firedFrom]
    by_cases h : pr.1 <:+: acc.1 <;> simp [applyRule, stepContent, h]

theorem firedFrom_subset : ∀ (rules : List Rule) (c : Str), ∀ x ∈ firedFrom rules c, x ∈ rules := by
  intro rules
  induction rules with
  | nil => intro c x hx; simp [firedFrom] at hx
  | cons pr rest ih =>
    intro c x hx
    rw [firedFrom] at hx
    rcases List.mem_append.mp hx with h | h
    · by_cases hf : pr.1 <:+: c
      · rw [if_pos hf] at h
        simp at h
        subst h
        exact List.mem_cons_self _ _
      · rw [if_neg hf] at h
        simp at h
    · exact List.mem_cons_of_mem _ (ih _ x h)

theorem stepContent_kills_own {pr : Rule} (hp : pr.1 ≠ []) (hok : SepOK pr.2 pr.1)
    (c : Str) : ¬ pr.1 <:+: stepContent c pr := by
  unfold stepContent
  by_cases h : pr.1 <:+: c
  · rw [if_pos h]
    exact not_infix_replaceAll_self hp hok
  · rw [if_neg h]
    exact h

theorem stepContent_not_infix_preserved {pr : Rule} {q c : Str} (hp : pr.1 ≠ [])
    (hq : q ≠ []) (h1 : SepOK pr.2 q) (hc : ¬ q <:+: c) : ¬ q <:+: stepContent c pr := by
  unfold stepContent
  by_cases h : pr.1 <:+: c
  · rw [if_pos h]
    exact not_infix_replaceAll_preserved hp hq h1 hc
  · rw [if_neg h]
    exact hc

theorem stepContent_infix_iff {pr : Rule} {q : Str} (hp : pr.1 ≠ []) (hq : q ≠ [])
    (h1 : SepOK pr.2 q) (h2 : SepOK pr.1 q) (c : Str) :
    q <:+: stepContent c pr ↔ q <:+: c := by
  unfold stepContent
  by_cases h : pr.1 <:+: c
  · rw [if_pos h]
    constructor
    · intro hocc
      by_contra hnc
      exact not_infix_replaceAll_preserved hp hq h1 hnc hocc
    · exact infix_replaceAll_preserved hp hq h2
  · rw [if_neg h]

theorem foldl_no_occurrence {q : Str} (hq : q ≠ []) :
    ∀ (rules : List Rule) (c : Str),
      (∀ pr ∈ rules, pr.1 ≠ [] ∧ SepOK pr.2 q) → ¬ q <:+: c →
      ¬ q <:+: rules.foldl stepContent c := by
  intro rules
  induction rules with
  | nil => intro c _ hc; exact hc
  | cons pr rest ih =>
    intro c hok hc
    rw [List.foldl_cons]
    refine ih _ (fun x hx => hok x (List.mem_cons_of_mem _ hx)) ?_
    exact stepContent_not_infix_preserved (hok pr (List.mem_cons_self _ _)).1 hq
      (hok pr (List.mem_cons_self _ _)).2 hc

/-- After one full pass of the loop, no pattern of the table occurs in the
content any more. -/
theorem no_occurrence_after (rules : List Rule) (hg : GoodTable rules) :
    ∀ c : Str, ∀ pr ∈ rules, ¬ pr.1 <:+: rules.foldl stepContent c := by
  induction rules with
  | nil => intro c pr hpr; simp at hpr
  | cons pr0 rest ih =>
    intro c pr hpr
    rw [List.foldl_cons]
    rcases List.mem_cons.mp hpr with h | h
    · subst h
      have hp : pr.1 ≠ [] := hg.1 pr (List.mem_cons_self _ _)
      refine foldl_no_occurrence hp rest (stepContent c pr) (fun x hx => ?_) ?_
      · exact ⟨hg.1 x (List.mem_cons_of_mem _ hx),
          hg.2.1 x (List.mem_cons_of_mem _ hx) pr (List.mem_cons_self _ _)⟩
      · exact stepContent_kills_own hp
          (hg.2.1 pr (List.mem_cons_self _ _) pr (List.mem_cons_self _ _)) c
    · exact ih hg.tail (stepContent c pr0) pr h

theorem foldl_stepContent_id : ∀ (rules : List Rule) (c : Str),
    (∀ pr ∈ rules, ¬ pr.1 <:+: c) → rules.foldl stepContent c = c := by
  intro rules
  induction rules with
  | nil => intro c _; rfl
  | cons pr rest ih =>
    intro c h
    rw [List.foldl_cons]
    have hstep : stepContent c pr = c := by
      unfold stepContent
      rw [if_neg (h pr (List.mem_cons_self _ _))]
    rw [hstep]
    exact ih c (fun x hx => h x (List.mem_cons_of_mem _ hx))

theorem firedFrom_eq_nil : ∀ (rules : List Rule) (c : Str),
    (∀ pr ∈ rules, ¬ pr.1 <:+: c) → firedFrom rules c = [] := by
  intro rules
  induction rules with
  | nil => intro c _; rfl
  | cons pr rest ih =>
    intro c h
    rw [firedFrom, if_neg (h pr (List.mem_cons_self _ _))]
    have hstep : stepContent c pr = c := by
      unfold stepContent
      rw [if_neg (h pr (List.mem_cons_self _ _))]
    rw [hstep, ih c (fun x hx => h x (List.mem_cons_of_mem _ hx))]
    rfl

/-- A rule of a good table fires exactly once when its pattern occurs in the
original content, and never otherwise — regardless of how many occurrences
there are.  (Firing is recorded per rule, not per occurrence, and earlier
rules of a good table neither create nor destroy other patterns'
occurrences.) -/
theorem fired_count (rules : List Rule) (hg : GoodTable rules) :
    ∀ c : Str, ∀ pr ∈ rules,
      (firedFrom rules c).count pr = if pr.1 <:+: c then 1 else 0 := by
  induction rules with
  | nil => intro c pr hpr; simp at hpr
  | cons pr0 rest ih =>
    intro c pr hpr
    rw [firedFrom, List.count_append]
    have hpr0_notin : pr0 ∉ rest := by
      intro hmem
      have := hg.2.2.2
      rw [List.map_cons] at this
      exact (List.nodup_cons.mp this).1 (List.mem_map_of_mem _ hmem)
    rcases List.mem_cons.mp hpr with h | h
    · subst h
      have hzero : (firedFrom rest (stepContent c pr)).count pr = 0 := by
        refine List.count_eq_zero.mpr (fun hmem => ?_)
        exact hpr0_notin (firedFrom_subset rest _ pr hmem)
      rw [hzero]
      by_cases hf : pr.1 <:+: c
      · rw [if_pos hf, if_pos hf]
        simp
      · rw [if_neg hf, if_neg hf]
        simp
    · have hne : pr ≠ pr0 := by
        intro heq
        subst heq
        exact hpr0_notin h
      have hfst_ne : pr0.1 ≠ pr.1 := by
        intro heq
        have := hg.2.2.2
        rw [List.map_cons] at this
        exact (List.nodup_cons.mp this).1 (heq ▸ List.mem_map_of_mem Prod.fst h)
      have hfirst : ((if pr0.1 <:+: c then [pr0] else []) : List Rule).count pr = 0 := by
        by_cases hf : pr0.1 <:+: c
        · rw [if_pos hf]
          simp [List.count_cons, hne]
        · rw [if_neg hf]
          rfl
      rw [hfirst, ih hg.tail (stepContent c pr0) pr h]
      have hiff : pr.1 <:+: stepContent c pr0 ↔ pr.1 <:+: c :=
        stepContent_infix_iff (hg.1 pr0 (List.mem_cons_self _ _))
          (hg.1 pr (List.mem_cons_of_mem _ h))
          (hg.2.1 pr0 (List.mem_cons_self _ _) pr (List.mem_cons_of_mem _ h))
          (hg.2.2.1 pr0 (List.mem_cons_self _ _) pr (List.mem_cons_of_mem _ h) hfst_ne) c
      by_cases hf : pr.1 <:+: c
      · rw [if_pos (hiff.mpr hf), if_pos hf]
      · rw [if_neg (fun hcontra => hf (hiff.mp hcontra)), if_neg hf]

/-! ## `process_file` and `main`

The filesystem is modelled as a partial map from paths to text contents.  A
path mapped to `none` is a file whose open/read/decode raises (missing
file, permission error, or undecodable bytes); `wfail` marks paths whose
write call raises.  Either exception lands in the `except` handler of
`process_file`, which prints the error and returns `False`. -/

/-- A file path: the directory names below the scanned root, plus the file
name. -/
abbrev FPath := List String × String

structure FileOutcome where
  fs : FPath → Option Str
  changed : Bool
  fired : List Rule

/-- `process_file`: read the file (`none` = the read raises and the handler
returns `False`), run the three replacement loops in order, and write the
result back only if it differs from the original content. -/
def process_file (fs : FPath → Option Str) (wfail : FPath → Bool) (path : FPath) :
    FileOutcome :=
  match fs path with
  | none => ⟨fs, false, []⟩
  | some content =>
      let acc1 := UI_REPLACEMENTS.foldl applyRule (content, [])
      let acc2 := DOMAIN_REPLACEMENTS.foldl applyRule acc1
      let acc3 := STORE_REPLACEMENTS.foldl applyRule acc2
      if acc3.1 ≠ content then
        if wfail path then ⟨fs, false, acc3.2⟩
        else ⟨Function.update fs path (some acc3.1), true, acc3.2⟩
      else ⟨fs, false, acc3.2⟩

theorem three_folds_eq (acc : Str × List Rule) :
    STORE_REPLACEMENTS.foldl applyRule
        (DOMAIN_REPLACEMENTS.foldl applyRule (UI_REPLACEMENTS.foldl applyRule acc)) =
      ALL_RULES.foldl applyRule acc := by
  rw [ALL_RULES, List.foldl_append, List.foldl_append]

/-- The transformed content as a function of the original content alone. -/
def newContentOf (c : Str) : Str := ALL_RULES.foldl stepContent c

/-- The fired-rule list as a function of the original content alone. -/
def firedOf (c : Str) : List Rule := firedFrom ALL_RULES c

theorem process_file_some {fs : FPath → Option Str} {wfail : FPath → Bool} {path : FPath}
    {content : Str} (h : fs path = some content) :
    process_file fs wfail path =
      if newContentOf content ≠ content then
        if wfail path then ⟨fs, false, firedOf content⟩
        else ⟨Function.update fs path (some (newContentOf content)), true, firedOf content⟩
      else ⟨fs, false, firedOf content⟩ := by
  unfold process_file
  rw [h]
  simp only [three_folds_eq]
  rw [show (ALL_RULES.foldl applyRule (content, [])).1 = newContentOf content from
    (applyRules_fst ALL_RULES (content, [])), show (ALL_RULES.foldl applyRule (content, [])).2 =
    firedOf content from by rw [applyRules_snd]; rfl]

theorem process_file_none {fs : FPath → Option Str} {wfail : FPath → Bool} {path : FPath}
    (h : fs path = none) :
    process_file fs wfail path = ⟨fs, false, []⟩ := by
  unfold process_file
  rw [h]

/-- The per-file loop of `main`: process each file, counting the ones
reported updated. -/
def mainLoop (wfail : FPath → Bool) :
    (FPath → Option Str) → List FPath → (FPath → Option Str) × Nat
  | fs, [] => (fs, 0)
  | fs, path :: rest =>
      let o := process_file fs wfail path
      let r := mainLoop wfail o.fs rest
      (r.1, (if o.changed then 1 else 0) + r.2)

/-- A directory tree: named subdirectories and file names at each level. -/
inductive DirTree : Type where
  | node (dirs : List (String × DirTree)) (files : List String)

mutual

/-- `find_rust_files`: `os.walk` with pruning of hidden and `target`
directories (`dirs[:] = [d for d in dirs if not d.startswith(".") and
d != "target"]`), collecting files that end in `.rs` and do not start
with `.`. -/
def find_rust_files : DirTree → List FPath
  | .node dirs files =>
      (files.filter (fun f => f.endsWith ".rs" && !f.startsWith ".")).map
          (fun f => ([], f))
        ++ findInDirs dirs

def findInDirs : List (String × DirTree) → List FPath
  | [] => []
  | (name, t) :: rest =>
      (if !name.startsWith "." && name != "target"
        then (find_rust_files t).map (fun pf => (name :: pf.1, pf.2))
        else [])
        ++ findInDirs rest

end

mutual

/-- Every file path present in the tree, with no filtering at all. -/
def allFilesT : DirTree → List FPath
  | .node dirs files => files.map (fun f => ([], f)) ++ allFilesDirs dirs

def allFilesDirs : List (String × DirTree) → List FPath
  | [] => []
  | (name, t) :: rest =>
      (allFilesT t).map (fun pf => (name :: pf.1, pf.2)) ++ allFilesDirs rest

end

/-- The externally visible state `main` runs against. -/
structure World where
  srcDirExists : Bool
  tree : DirTree
  fs : FPath → Option Str
  wfail : FPath → Bool

/-- `main`: check that the source directory exists (else print the error
and return, having touched nothing — modelled by `none` in the second
component), enumerate the Rust files, process each, and report the updated
count. -/
def main (w : World) : (FPath → Option Str) × Option Nat :=
  if w.srcDirExists then
    let r := mainLoop w.wfail w.fs (find_rust_files w.tree)
    (r.1, some r.2)
  else
    (w.fs, none)

/-- Number of (leftmost, non-overlapping) occurrences of `p` in `s`, as
found by the scan of `re.sub`. -/
def countOcc (p s : Str) : Nat := (splitOnSub p s).length - 1

theorem length_consHead {c : Char} {L : List Str} (hL : L ≠ []) :
    (consHead c L).length = L.length := by
  match L with
  | [] => exact absurd rfl hL
  | u :: L' => rfl

theorem two_le_splitOnSub_length {p : Str} (hp : p ≠ []) :
    ∀ {s : Str}, p <:+: s → 2 ≤ (splitOnSub p s).length := by
  intro s
  induction s with
  | nil =>
    intro h
    exact absurd (List.infix_nil.mp h) hp
  | cons c t ih =>
    intro h
    by_cases hpre : p <+: c :: t
    · rw [splitOnSub_pos hp hpre]
      have := List.length_pos.mpr (splitOnSub_ne_nil p ((c :: t).drop p.length))
      simp only [List.length_cons]
      omega
    · rcases List.infix_cons_iff.mp h with h1 | h1
      · exact absurd h1 hpre
      · rw [splitOnSub_cons_neg hpre,
          length_consHead (splitOnSub_ne_nil p t)]
        exact ih h1

/-- The path filter of the enumerator, as the spec states it: the file name
ends in `.rs` and does not start with `.`, and no directory on the path
below the root starts with `.` or is named `target`. -/
def goodPath (pf : FPath) : Prop :=
  pf.2.endsWith ".rs" = true ∧ pf.2.startsWith "." = false ∧
    ∀ d ∈ pf.1, d.startsWith "." = false ∧ d ≠ "target"

theorem walker_mem_bounded :
    ∀ n : Nat,
      (∀ t : DirTree, sizeOf t ≤ n → ∀ pf : FPath,
        pf ∈ find_rust_files t ↔ pf ∈ allFilesT t ∧ goodPath pf) ∧
      (∀ l : List (String × DirTree), sizeOf l ≤ n → ∀ pf : FPath,
        pf ∈ findInDirs l ↔ pf ∈ allFilesDirs l ∧ goodPath pf) := by
  intro n
  induction n with
  | zero =>
    constructor
    · intro t ht
      exact absurd ht (by cases t; simp)
    · intro l hl
      exact absurd hl (by cases l <;> simp)
  | succ n ih =>
    constructor
    · intro t ht pf
      match t with
      | DirTree.node dirs files =>
        have hdirs : sizeOf dirs ≤ n := by
          simp only [DirTree.node.sizeOf_spec] at ht
          omega
        rw [find_rust_files, allFilesT]
        simp only [List.mem_append]
        constructor
        · intro h
          rcases h with h | h
          · simp only [List.mem_map, List.mem_filter] at h
            obtain ⟨f, ⟨hf, hg⟩, heq⟩ := h
            subst heq
            simp only [Bool.and_eq_true, Bool.not_eq_true'] at hg
            refine ⟨Or.inl (List.mem_map_of_mem _ hf), hg.1, hg.2, ?_⟩
            intro d hd
            simp at hd
          · obtain ⟨hmem, hgood⟩ := (ih.2 dirs hdirs pf).mp h
            exact ⟨Or.inr hmem, hgood⟩
        · rintro ⟨h | h, hgood⟩
          · simp only [List.mem_map] at h
            obtain ⟨f, hf, heq⟩ := h
            subst heq
            refine Or.inl ?_
            simp only [List.mem_map, List.mem_filter]
            refine ⟨f, ⟨hf, ?_⟩, rfl⟩
            simp only [Bool.and_eq_true, Bool.not_eq_true']
            exact ⟨hgood.1, hgood.2.1⟩
          · exact Or.inr ((ih.2 dirs hdirs pf).mpr ⟨h, hgood⟩)
    · intro l hl pf
      match l with
      | [] =>
        rw [findInDirs, allFilesDirs]
        simp
      | (name, t) :: rest =>
        have htsz : sizeOf t ≤ n := by
          simp only [List.cons.sizeOf_spec, Prod.mk.sizeOf_spec] at hl
          omega
        have hrsz : sizeOf rest ≤ n := by
          simp only [List.cons.sizeOf_spec] at hl
          omega
        rw [findInDirs, allFilesDirs]
        simp only [List.mem_append]
        by_cases hkeep : (!name.startsWith "." && name != "target") = true
        · rw [if_pos hkeep]
          simp only [Bool.and_eq_true, Bool.not_eq_true', bne_iff_ne] at hkeep
          constructor
          · intro h
            rcases h with h | h
            · simp only [List.mem_map] at h
              obtain ⟨qf, hqf, heq⟩ := h
              obtain ⟨hmem, hgood⟩ := (ih.1 t htsz qf).mp hqf
              subst heq
              refine ⟨Or.inl ?_, hgood.1, hgood.2.1, ?_⟩
              · exact List.mem_map_of_mem _ hmem
              · intro d hd
                rcases List.mem_cons.mp hd with h1 | h1
                · subst h1
                  exact hkeep
                · exact hgood.2.2 d h1
            · obtain ⟨hmem, hgood⟩ := (ih.2 rest hrsz pf).mp h
              exact ⟨Or.inr hmem, hgood⟩
          · rintro ⟨h | h, hgood⟩
            · simp only [List.mem_map] at h
              obtain ⟨qf, hqf, heq⟩ := h
              subst heq
              refine Or.inl ?_
              simp only [List.mem_map]
              refine ⟨qf, (ih.1 t htsz qf).mpr ⟨hqf, hgood.1, hgood.2.1, ?_⟩, rfl⟩
              intro d hd
              exact hgood.2.2 d (List.mem_cons_of_mem _ hd)
            · exact Or.inr ((ih.2 rest hrsz pf).mpr ⟨h, hgood⟩)
        · rw [if_neg hkeep]
          simp only [List.not_mem_nil, false_or]
          rw [ih.2 rest hrsz pf]
          constructor
          · rintro ⟨hmem, hgood⟩
            exact ⟨Or.inr hmem, hgood⟩
          · rintro ⟨h | h, hgood⟩
            · simp only [List.mem_map] at h
              obtain ⟨qf, _, heq⟩ := h
              have hname := hgood.2.2 name (by rw [← heq]; exact List.mem_cons_self _ _)
              simp only [Bool.and_eq_true, Bool.not_eq_true', bne_iff_ne] at hkeep
              exact absurd ⟨hname.1, hname.2⟩ hkeep
            · exact ⟨h, hgood⟩

/-- Walker characterization: a path is enumerated by `find_rust_files` iff
it exists in the tree, its file name ends in `.rs` and does not start with
`.`, and no directory on the way down starts with `.` or is `target`. -/
theorem mem_find_rust_files (t : DirTree) (pf : FPath) :
    pf ∈ find_rust_files t ↔ pf ∈ allFilesT t ∧ goodPath pf :=
  (walker_mem_bounded (sizeOf t)).1 t (le_refl _) pf

/-! ## Regex model for claim C10

The patterns of the table are Python regex source strings.  `re` itself is
not part of the repository, so the fragment of its semantics the script
relies on is modelled from the spec: a pattern character that is not a
metacharacter matches exactly itself, and `re.sub` replaces the leftmost
non-overlapping matches, scanning left to right and resuming after each
match.  Metacharacter tokens are left uninterpreted (they match nothing in
this model); the equivalence theorem is restricted to metacharacter-free
patterns, which is all the table contains. -/

/-- The special characters of Python `re` patterns. -/
def regexMeta : List Char :=
  ['.', '^', '$', '*', '+', '?', Char.ofNat 123, Char.ofNat 125,
    '[', ']', '\\', '|', '(', ')']

inductive RTok : Type where
  | lit (c : Char)
  | meta (c : Char)
deriving DecidableEq

/-- Modelled from the spec: lexing a Python regex pattern, marking which
characters are metacharacters. -/
def lexPattern (p : Str) : List RTok :=
  p.map (fun c => if c ∈ regexMeta then RTok.meta c else RTok.lit c)

/-- Modelled from the spec: whether the token sequence matches at the start
of `s` (literal tokens match themselves; a metacharacter token is outside
the modelled fragment and matches nothing). -/
def tokPrefix : List RTok → Str → Bool
  | [], _ => true
  | RTok.lit c :: ts, d :: s => c == d && tokPrefix ts s
  | RTok.lit _ :: _, [] => false
  | RTok.meta _ :: _, _ => false

theorem tokPrefix_length_le :
    ∀ (ts : List RTok) (s : Str), tokPrefix ts s = true → ts.length ≤ s.length := by
  intro ts
  induction ts with
  | nil => intro s _; simp
  | cons t ts ih =>
    intro s h
    match t, s with
    | RTok.lit c, [] => exact absurd h (by simp [tokPrefix])
    | RTok.lit c, d :: s' =>
      have := ih s' (by simp [tokPrefix] at h; exact h.2)
      simp only [List.length_cons]
      omega
    | RTok.meta c, _ => exact absurd h (by simp [tokPrefix])

/-- Modelled from the spec: the chunk decomposition of `s` induced by the
leftmost non-overlapping matches of the token sequence. -/
def splitOnTok (ts : List RTok) (s : Str) : List Str :=
  if h : ts ≠ [] ∧ tokPrefix ts s = true then
    [] :: splitOnTok ts (s.drop ts.length)
  else
    match s with
    | [] => [[]]
    | c :: t => consHead c (splitOnTok ts t)
termination_by s.length
decreasing_by
  · have h1 : 0 < ts.length := List.length_pos.mpr h.1
    have h2 : ts.length ≤ s.length := tokPrefix_length_le ts s h.2
    simp only [List.length_drop]
    omega
  · simp only [List.length_cons]
    omega

/-- Modelled from the spec: `re.sub(pat, r, s)` — replace every leftmost
non-overlapping match of the pattern by `r` (the replacement is inserted
literally; this is faithful for replacement strings containing no
backslash, which is all the table contains). -/
def reSub (pat r s : Str) : Str :=
  joinWith r (splitOnTok (lexPattern pat) s)

theorem lexPattern_all_lit {p : Str} (h : ∀ c ∈ p, c ∉ regexMeta) :
    lexPattern p = p.map RTok.lit := by
  unfold lexPattern
  exact List.map_congr_left (fun c hc => if_neg (h c hc))

theorem tokPrefix_map_lit : ∀ (p s : Str), tokPrefix (p.map RTok.lit) s = true ↔ p <+: s := by
  intro p
  induction p with
  | nil => intro s; simp [tokPrefix]
  | cons c p' ih =>
    intro s
    match s with
    | [] => simp [tokPrefix]
    | d :: s' =>
      simp only [List.map_cons, tokPrefix, Bool.and_eq_true, beq_iff_eq]
      rw [ih s', List.cons_prefix_cons]

theorem splitOnTok_eq_splitOnSub_bounded {p : Str} (h : ∀ c ∈ p, c ∉ regexMeta) :
    ∀ n : Nat, ∀ s : Str, s.length ≤ n → splitOnTok (lexPattern p) s = splitOnSub p s := by
  have hlex : lexPattern p = p.map RTok.lit := lexPattern_all_lit h
  have hlen : (lexPattern p).length = p.length := by rw [hlex, List.length_map]
  have hcond : ∀ s : Str, (lexPattern p ≠ [] ∧ tokPrefix (lexPattern p) s = true) ↔
      (p ≠ [] ∧ p <+: s) := by
    intro s
    rw [hlex, tokPrefix_map_lit]
    simp
  intro n
  induction n with
  | zero =>
    intro s hs
    have : s = [] := List.eq_nil_of_length_eq_zero (Nat.le_zero.mp hs)
    subst this
    rw [splitOnTok, splitOnSub]
    by_cases hc : p ≠ [] ∧ p <+: ([] : Str)
    · exact absurd (List.prefix_nil.mp hc.2) hc.1
    · rw [dif_neg hc, dif_neg (fun hx => hc ((hcond []).mp hx))]
  | succ n ih =>
    intro s hs
    rw [splitOnTok, splitOnSub]
    by_cases hc : p ≠ [] ∧ p <+: s
    · rw [dif_pos hc, dif_pos ((hcond s).mpr hc), hlen]
      congr 1
      have : (s.drop p.length).length ≤ n := by
        have h1 : 0 < p.length := List.length_pos.mpr hc.1
        have h2 : p.length ≤ s.length := hc.2.length_le
        simp only [List.length_drop]
        omega
      exact ih _ this
    · rw [dif_neg hc, dif_neg (fun hx => hc ((hcond s).mp hx))]
      match s with
      | [] => rfl
      | c :: t =>
        have : t.length ≤ n := by
          simp only [List.length_cons] at hs
          omega
        show consHead c (splitOnTok (lexPattern p) t) = consHead c (splitOnSub p t)
        rw [ih t this]

/-- On a metacharacter-free pattern, the modelled `re.sub` is exactly
literal substring replace-all. -/
theorem reSub_eq_replaceAll {p : Str} (h : ∀ c ∈ p, c ∉ regexMeta) (r s : Str) :
    reSub p r s = replaceAll p r s := by
  rw [reSub, replaceAll, splitOnTok_eq_splitOnSub_bounded h s.length s (le_refl _)]

theorem countOcc_pos_iff {p s : Str} (hp : p ≠ []) : 1 ≤ countOcc p s ↔ p <:+: s := by
  constructor
  · intro h
    by_contra hnc
    rw [countOcc, splitOnSub_eq_single hp hnc] at h
    simp at h
  · intro h
    have := two_le_splitOnSub_length hp h
    rw [countOcc]
    omega

/-! ## Auxiliary lemmas for the claim theorems -/

theorem stepContent_eq_replaceAll {pr : Rule} (hp : pr.1 ≠ []) (c : Str) :
    stepContent c pr = replaceAll pr.1 pr.2 c := by
  unfold stepContent
  by_cases h : pr.1 <:+: c
  · rw [if_pos h]
  · rw [if_neg h, replaceAll_id_of_no_occurrence hp h]

/-- The spec's description of the engine: apply every rule of the table,
in order, each rule transforming the output of the previous one. -/
def seqReplace (rules : List Rule) (c : Str) : Str :=
  rules.foldl (fun c pr => replaceAll pr.1 pr.2 c) c

theorem foldl_stepContent_eq_seqReplace :
    ∀ rules : List Rule, (∀ pr ∈ rules, pr.1 ≠ []) →
      ∀ c : Str, rules.foldl stepContent c = seqReplace rules c := by
  intro rules
  induction rules with
  | nil => intro _ c; rfl
  | cons pr rest ih =>
    intro h c
    rw [List.foldl_cons, seqReplace, List.foldl_cons,
      stepContent_eq_replaceAll (h pr (List.mem_cons_self _ _)) c]
    exact ih (fun x hx => h x (List.mem_cons_of_mem _ hx)) _

theorem newContentOf_eq_seqReplace (c : Str) :
    newContentOf c = seqReplace ALL_RULES c :=
  foldl_stepContent_eq_seqReplace ALL_RULES allRules_good.1 c

theorem process_file_frame (fs : FPath → Option Str) (wf : FPath → Bool) (path : FPath) :
    ∀ q : FPath, q ≠ path → (process_file fs wf path).fs q = fs q := by
  intro q hq
  cases hfsp : fs path with
  | none => rw [process_file_none hfsp]
  | some content =>
    rw [process_file_some hfsp]
    split_ifs <;> simp [Function.update_noteq hq]

theorem process_file_none_preserved {fs : FPath → Option Str} {wf : FPath → Bool}
    {path k : FPath} (hk : fs k = none) : (process_file fs wf path).fs k = none := by
  by_cases hpk : k = path
  · subst hpk
    rw [process_file_none hk]
    exact hk
  · rw [process_file_frame fs wf path k hpk]
    exact hk

theorem mainLoop_none_preserved (wf : FPath → Bool) {k : FPath} :
    ∀ (paths : List FPath) (fs : FPath → Option Str), fs k = none →
      (mainLoop wf fs paths).1 k = none := by
  intro paths
  induction paths with
  | nil => intro fs hk; exact hk
  | cons p rest ih =>
    intro fs hk
    rw [mainLoop]
    exact ih _ (process_file_none_preserved hk)

theorem mainLoop_append (wf : FPath → Bool) :
    ∀ (xs ys : List FPath) (fs : FPath → Option Str),
      mainLoop wf fs (xs ++ ys) =
        ((mainLoop wf (mainLoop wf fs xs).1 ys).1,
          (mainLoop wf fs xs).2 + (mainLoop wf (mainLoop wf fs xs).1 ys).2) := by
  intro xs
  induction xs with
  | nil =>
    intro ys fs
    show mainLoop wf fs ys = ((mainLoop wf fs ys).1, 0 + (mainLoop wf fs ys).2)
    rw [Nat.zero_add]
  | cons x xs' ih =>
    intro ys fs
    rw [List.cons_append, mainLoop, ih ys (process_file fs wf x).fs]
    conv_rhs => rw [mainLoop]
    simp [Nat.add_assoc]

/-- If processing a file raises — the read/decode raises (`fs k = none`) or
the write raises on changed content — `process_file` catches the exception,
leaves the filesystem untouched, and returns `False`. -/
theorem process_file_error {fs : FPath → Option Str} {wf : FPath → Bool} {k : FPath}
    (hk : fs k = none ∨
      ∃ c : Str, fs k = some c ∧ newContentOf c ≠ c ∧ wf k = true) :
    (process_file fs wf k).fs = fs ∧ (process_file fs wf k).changed = false := by
  rcases hk with h | ⟨c, hc, hne, hw⟩
  · rw [process_file_none h]
    exact ⟨rfl, rfl⟩
  · rw [process_file_some hc, if_pos hne, if_pos hw]
    exact ⟨rfl, rfl⟩

/-- A content containing some pattern of the table is really changed by the
full pass. -/
theorem newContentOf_ne_of_occurs {c : Str} {pr : Rule} (hpr : pr ∈ ALL_RULES)
    (hocc : pr.1 <:+: c) : newContentOf c ≠ c := by
  intro heq
  have h := no_occurrence_after ALL_RULES allRules_good c pr hpr
  rw [show ALL_RULES.foldl stepContent c = newContentOf c from rfl, heq] at h
  exact h hocc

/-! ## The claims -/

/-- **C1.** For every file successfully processed by `process_file` (the
read yields `content` and the write does not fail), the file is reported
updated iff applying every rule of the fixed table in order to the original
content — each rule transforming the output of the previous one — differs
from the original content; in that case exactly that final content is
written to the file, and otherwise the filesystem is untouched. -/
theorem c1_final_content_and_update (fs : FPath → Option Str) (wfail : FPath → Bool)
    (path : FPath) (content : Str) (hread : fs path = some content)
    (hw : wfail path = false) :
    ((process_file fs wfail path).changed = true ↔ seqReplace ALL_RULES content ≠ content) ∧
    ((process_file fs wfail path).changed = true →
      (process_file fs wfail path).fs path = some (seqReplace ALL_RULES content)) ∧
    ((process_file fs wfail path).changed = false →
      (process_file fs wfail path).fs = fs) := by
  rw [process_file_some hread, ← newContentOf_eq_seqReplace]
  by_cases hne : newContentOf content ≠ content
  · rw [if_pos hne, if_neg (by rw [hw]; exact Bool.false_ne_true)]
    refine ⟨⟨fun _ => hne, fun _ => rfl⟩, fun _ => ?_, fun hcontra => absurd hcontra (by simp)⟩
    simp [Function.update_same]
  · rw [if_neg hne]
    exact ⟨⟨fun hcontra => absurd hcontra (by simp), fun hcontra => absurd hcontra hne⟩,
      fun hcontra => absurd hcontra (by simp), fun _ => rfl⟩

theorem c1_witness :
    ((fun _ : FPath => some ([] : Str)) ([], "lib.rs") = some ([] : Str)) ∧
    ((fun _ : FPath => false) ([], "lib.rs") = false) ∧
    (((process_file (fun _ => some []) (fun _ => false) ([], "lib.rs")).changed = true ↔
        seqReplace ALL_RULES [] ≠ []) ∧
      ((process_file (fun _ => some []) (fun _ => false) ([], "lib.rs")).changed = true →
        (process_file (fun _ => some []) (fun _ => false) ([], "lib.rs")).fs ([], "lib.rs") =
          some (seqReplace ALL_RULES [])) ∧
      ((process_file (fun _ => some []) (fun _ => false) ([], "lib.rs")).changed = false →
        (process_file (fun _ => some []) (fun _ => false) ([], "lib.rs")).fs =
          (fun _ => some []))) :=
  ⟨rfl, rfl, c1_final_content_and_update (fun _ => some []) (fun _ => false)
    ([], "lib.rs") [] rfl rfl⟩

/-- **C2.** The engine is idempotent over the full rule table: applying the
ordered rule set to already-migrated content changes nothing, and no rule
fires on the second pass. -/
theorem c2_idempotent (c : Str) :
    newContentOf (newContentOf c) = newContentOf c ∧ firedOf (newContentOf c) = [] := by
  have hno : ∀ pr ∈ ALL_RULES, ¬ pr.1 <:+: newContentOf c :=
    no_occurrence_after ALL_RULES allRules_good c
  exact ⟨foldl_stepContent_id _ _ hno, firedFrom_eq_nil _ _ hno⟩

theorem countOcc_self {p : Str} (hp : p ≠ []) : countOcc p p = 1 := by
  rw [countOcc, splitOnSub_pos hp List.prefix_rfl, List.drop_length, splitOnSub_nil]
  rfl

/-- **C3.** If a rule's pattern occurs `n ≥ 1` times in a content, the
substitution replaces all occurrences (none survives the rule's own
`re.sub`, nor the full pass), while the rule appears exactly once in the
fired list, regardless of `n`. -/
theorem c3_global_substitution_fired_once (pr : Rule) (hpr : pr ∈ ALL_RULES) (c : Str)
    (n : Nat) (hc : countOcc pr.1 c = n) (hn : 1 ≤ n) :
    ¬ pr.1 <:+: replaceAll pr.1 pr.2 c ∧
    (firedOf c).count pr = 1 ∧
    ¬ pr.1 <:+: newContentOf c := by
  have hp : pr.1 ≠ [] := allRules_good.1 pr hpr
  have hocc : pr.1 <:+: c := (countOcc_pos_iff hp).mp (hc ▸ hn)
  refine ⟨not_infix_replaceAll_self hp (allRules_good.2.1 pr hpr pr hpr), ?_, ?_⟩
  · rw [firedOf, fired_count ALL_RULES allRules_good c pr hpr, if_pos hocc]
  · exact no_occurrence_after ALL_RULES allRules_good c pr hpr

theorem c3_witness :
    (("from crate::store".toList, "from ruxlog_shared::store".toList) ∈ ALL_RULES ∧
      countOcc "from crate::store".toList "from crate::store".toList = 1 ∧ 1 ≤ 1) ∧
    (¬ "from crate::store".toList <:+:
        replaceAll "from crate::store".toList "from ruxlog_shared::store".toList
          "from crate::store".toList ∧
      (firedOf "from crate::store".toList).count
          ("from crate::store".toList, "from ruxlog_shared::store".toList) = 1 ∧
      ¬ "from crate::store".toList <:+: newContentOf "from crate::store".toList) :=
  ⟨⟨by decide, countOcc_self (by decide), le_refl 1⟩,
    c3_global_substitution_fired_once
      ("from crate::store".toList, "from ruxlog_shared::store".toList) (by decide)
      "from crate::store".toList 1 (countOcc_self (by decide)) (le_refl 1)⟩

/-- **C4.** Per-file fault isolation: if processing file `k` raises an
error when its turn comes — the read/decode raises (its entry is `none`) or
the write raises on changed content (`wf k` with the transformed content
differing) — the error is caught at the level of file `k` alone: `k` is
reported unchanged (`False`, no count), and the batch run over
`xs ++ k :: ys` is identical to the run over `xs ++ ys`, so every other
file of the batch is still processed and the loop never aborts. -/
theorem c4_fault_isolation (wf : FPath → Bool) (fs : FPath → Option Str)
    (xs ys : List FPath) (k : FPath)
    (hk : (mainLoop wf fs xs).1 k = none ∨
      ∃ c : Str, (mainLoop wf fs xs).1 k = some c ∧ newContentOf c ≠ c ∧ wf k = true) :
    mainLoop wf fs (xs ++ k :: ys) = mainLoop wf fs (xs ++ ys) ∧
    (process_file (mainLoop wf fs xs).1 wf k).changed = false := by
  obtain ⟨hfs, hch⟩ := process_file_error hk
  constructor
  · rw [mainLoop_append wf xs (k :: ys) fs, mainLoop_append wf xs ys fs]
    rw [mainLoop, hfs, hch]
    simp
  · exact hch

theorem c4_witness :
    ((mainLoop (fun _ => true) (fun _ => some "from crate::store".toList) []).1
          ([], "store.rs") = none ∨
      ∃ c : Str,
        (mainLoop (fun _ => true) (fun _ => some "from crate::store".toList) []).1
            ([], "store.rs") = some c ∧
          newContentOf c ≠ c ∧ (fun _ : FPath => true) ([], "store.rs") = true) ∧
    (mainLoop (fun _ => true) (fun _ => some "from crate::store".toList)
          ([] ++ ([], "store.rs") :: []) =
        mainLoop (fun _ => true) (fun _ => some "from crate::store".toList) ([] ++ []) ∧
      (process_file
          (mainLoop (fun _ => true) (fun _ => some "from crate::store".toList) []).1
          (fun _ => true) ([], "store.rs")).changed = false) :=
  have hk : (mainLoop (fun _ => true) (fun _ => some "from crate::store".toList) []).1
        ([], "store.rs") = none ∨
      ∃ c : Str,
        (mainLoop (fun _ => true) (fun _ => some "from crate::store".toList) []).1
            ([], "store.rs") = some c ∧
          newContentOf c ≠ c ∧ (fun _ : FPath => true) ([], "store.rs") = true :=
    Or.inr ⟨"from crate::store".toList, rfl,
      @newContentOf_ne_of_occurs "from crate::store".toList
        ("from crate::store".toList, "from ruxlog_shared::store".toList)
        (by decide) List.infix_rfl, rfl⟩
  ⟨hk, c4_fault_isolation (fun _ => true) (fun _ => some "from crate::store".toList)
    [] [] ([], "store.rs") hk⟩

/-- **C5.** No-op detection: if no pattern of the table occurs in the
content, `process_file` writes nothing, reports `changed = false`, and the
fired-rule list is empty. -/
theorem c5_noop (fs : FPath → Option Str) (wf : FPath → Bool) (path : FPath)
    (content : Str) (hread : fs path = some content)
    (hno : ∀ pr ∈ ALL_RULES, ¬ pr.1 <:+: content) :
    process_file fs wf path = ⟨fs, false, []⟩ := by
  rw [process_file_some hread]
  have h1 : newContentOf content = content := foldl_stepContent_id _ _ hno
  have h2 : firedOf content = [] := firedFrom_eq_nil _ _ hno
  rw [h1, h2, if_neg (by simp)]

theorem c5_witness :
    ((fun _ : FPath => some ("fn main() \x7b\x7d".toList)) ([], "main.rs") =
        some ("fn main() \x7b\x7d".toList)) ∧
    (∀ pr ∈ ALL_RULES, ¬ pr.1 <:+: "fn main() \x7b\x7d".toList) ∧
    process_file (fun _ => some ("fn main() \x7b\x7d".toList)) (fun _ => false)
        ([], "main.rs") =
      ⟨fun _ => some ("fn main() \x7b\x7d".toList), false, []⟩ :=
  ⟨rfl, by decide, c5_noop (fun _ => some ("fn main() \x7b\x7d".toList)) (fun _ => false)
    ([], "main.rs") ("fn main() \x7b\x7d".toList) rfl (by decide)⟩

/-- **C6.** Candidate enumeration: a file path is produced by
`find_rust_files` iff it exists in the tree, its file name ends in `.rs`
and does not start with `.`, and no directory on the path below the root
starts with `.` or equals `target`. -/
theorem c6_candidate_enumeration (t : DirTree) (pf : FPath) :
    pf ∈ find_rust_files t ↔
      pf ∈ allFilesT t ∧ pf.2.endsWith ".rs" = true ∧ pf.2.startsWith "." = false ∧
        ∀ d ∈ pf.1, d.startsWith "." = false ∧ d ≠ "target" :=
  mem_find_rust_files t pf

/-- **C7.** Configuration failure atomicity: if the source directory does
not exist, `main` reports the error (the `none` result) and returns with
the filesystem untouched — nothing is enumerated, read, or written. -/
theorem c7_config_abort (w : World) (h : w.srcDirExists = false) :
    main w = (w.fs, none) := by
  rw [main, if_neg]
  rw [h]
  exact Bool.false_ne_true

theorem c7_witness :
    (World.mk false (DirTree.node [] []) (fun _ => none) (fun _ => false)).srcDirExists
        = false ∧
    main (World.mk false (DirTree.node [] []) (fun _ => none) (fun _ => false)) =
      ((World.mk false (DirTree.node [] []) (fun _ => none) (fun _ => false)).fs, none) :=
  ⟨rfl, c7_config_abort (World.mk false (DirTree.node [] []) (fun _ => none)
    (fun _ => false)) rfl⟩

/-- **C8.** The substitution step is a pure, deterministic function of the
content: two invocations of `process_file` that read the same content
produce the same fired list — a function of the content alone — and the
only filesystem effect either can have is the single write of the
transformed content at its own path. -/
theorem c8_pure_deterministic (fs₁ fs₂ : FPath → Option Str) (wf₁ wf₂ : FPath → Bool)
    (p₁ p₂ : FPath) (c : Str) (h₁ : fs₁ p₁ = some c) (h₂ : fs₂ p₂ = some c) :
    (process_file fs₁ wf₁ p₁).fired = (process_file fs₂ wf₂ p₂).fired ∧
    (process_file fs₁ wf₁ p₁).fired = firedOf c ∧
    (∀ q : FPath, (process_file fs₁ wf₁ p₁).fs q = fs₁ q ∨
      (q = p₁ ∧ (process_file fs₁ wf₁ p₁).fs q = some (newContentOf c))) := by
  rw [process_file_some h₁, process_file_some h₂]
  refine ⟨?_, ?_, ?_⟩
  · split_ifs <;> rfl
  · split_ifs <;> rfl
  · intro q
    split_ifs with hne hw
    · exact Or.inl rfl
    · by_cases hq : q = p₁
      · subst hq
        exact Or.inr ⟨rfl, by simp [Function.update_same]⟩
      · exact Or.inl (by simp [Function.update_noteq hq])
    · exact Or.inl rfl

theorem c8_witness :
    ((fun _ : FPath => some ([] : Str)) ([], "a.rs") = some ([] : Str)) ∧
    ((fun _ : FPath => some ([] : Str)) ([], "b.rs") = some ([] : Str)) ∧
    ((process_file (fun _ => some []) (fun _ => false) ([], "a.rs")).fired =
        (process_file (fun _ => some []) (fun _ => true) ([], "b.rs")).fired ∧
      (process_file (fun _ => some []) (fun _ => false) ([], "a.rs")).fired = firedOf [] ∧
      (∀ q : FPath,
        (process_file (fun _ => some []) (fun _ => false) ([], "a.rs")).fs q =
          (fun _ : FPath => some ([] : Str)) q ∨
        (q = ([], "a.rs") ∧
          (process_file (fun _ => some []) (fun _ => false) ([], "a.rs")).fs q =
            some (newContentOf [])))) :=
  ⟨rfl, rfl, c8_pure_deterministic (fun _ => some []) (fun _ => some [])
    (fun _ => false) (fun _ => true) ([], "a.rs") ([], "b.rs") [] rfl rfl⟩

/-- **C9.** Write frame: `process_file` touches no path other than its own;
at its own path it either leaves the file untouched or overwrites it with
the transformed content — and a write happens only when the file was
readable and the transformed content differs from the original.  It never
creates or deletes a file, and a `changed = true` report implies the
content really differed. -/
theorem c9_write_frame (fs : FPath → Option Str) (wf : FPath → Bool) (path : FPath) :
    (∀ q : FPath, q ≠ path → (process_file fs wf path).fs q = fs q) ∧
    ((process_file fs wf path).fs path = fs path ∨
      ∃ c : Str, fs path = some c ∧ newContentOf c ≠ c ∧
        (process_file fs wf path).fs path = some (newContentOf c)) ∧
    ((process_file fs wf path).changed = true →
      ∃ c : Str, fs path = some c ∧ newContentOf c ≠ c) := by
  refine ⟨process_file_frame fs wf path, ?_, ?_⟩
  · cases hfsp : fs path with
    | none =>
      rw [process_file_none hfsp]
      exact Or.inl hfsp
    | some content =>
      rw [process_file_some hfsp]
      by_cases hne : newContentOf content ≠ content
      · rw [if_pos hne]
        by_cases hw : wf path = true
        · rw [if_pos hw]
          exact Or.inl hfsp
        · rw [if_neg hw]
          exact Or.inr ⟨content, rfl, hne, by simp [Function.update_same]⟩
      · rw [if_neg hne]
        exact Or.inl hfsp
  · intro hch
    cases hfsp : fs path with
    | none =>
      rw [process_file_none hfsp] at hch
      exact absurd hch (by simp)
    | some content =>
      rw [process_file_some hfsp] at hch
      by_cases hne : newContentOf content ≠ content
      · rw [if_pos hne] at hch
        by_cases hw : wf path = true
        · rw [if_pos hw] at hch
          exact absurd hch (by simp)
        · exact ⟨content, rfl, hne⟩
      · rw [if_neg hne] at hch
        exact absurd hch (by simp)

/-- **C10.** Every pattern of the table is free of regex metacharacters and
every replacement is free of backslash escapes; consequently the regex
search-and-substitute of the engine coincides extensionally with literal
substring replace-all on every input. -/
theorem c10_literal_rules :
    (∀ pr ∈ ALL_RULES, (∀ ch ∈ pr.1, ch ∉ regexMeta) ∧ (∀ ch ∈ pr.2, ch ≠ '\\')) ∧
    (∀ p r s : Str, (∀ ch ∈ p, ch ∉ regexMeta) → reSub p r s = replaceAll p r s) := by
  constructor
  · decide
  · intro p r s h
    exact reSub_eq_replaceAll h r s

theorem c10_witness :
    (∀ ch ∈ "use crate::store::".toList, ch ∉ regexMeta) ∧
    reSub "use crate::store::".toList "use ruxlog_shared::store::".toList [] =
      replaceAll "use crate::store::".toList "use ruxlog_shared::store::".toList [] :=
  ⟨by decide, c10_literal_rules.2 "use crate::store::".toList
    "use ruxlog_shared::store::".toList [] (by decide)⟩

end Migrate
